import Mathlib

/-!
Shallow embedding of the Android resource validator of `validator.py`
(class `AndroidResourceValidator`), together with theorems checking the
specification's claims about it.

Conventions of the embedding:
* Python strings are Lean `String`s; character-level scanning is done on
  `List Char` (`String.data`).
* The regular-expression calls of the source (`re.findall`, `re.search`,
  `re.match`) are translated into explicit left-to-right scanners with the
  exact leftmost / non-overlapping / greedy / lazy semantics of the
  patterns they implement.
* `xml.etree.ElementTree.fromstring` (an external library call) is
  abstracted as a parse oracle `parse : String -> ParseOutcome`; everything
  the validator does with its outcome is embedded faithfully.
* Python's `str.strip`, `str.lower` and the regex classes `\s`, `[a-zA-Z]`,
  `[0-9A-Fa-f]` are embedded at their ASCII meaning (the inputs the
  validator handles are ASCII XML).
* The mutable accumulators `self.errors` / `self.warnings` (cleared at the
  start of each `validate_xml_file` call) become pure
  `List String × List String` results, appended in the source's order.
-/

namespace Panel

/-- The double-quote character (written via its code point). -/
def qc : Char := Char.ofNat 34

/-- The newline character. -/
def nl : Char := Char.ofNat 10

/-- A one-character string holding a double quote. -/
def dq : String := ⟨[qc]⟩

/-- ASCII whitespace as recognised by Python's `str.strip` and regex `\s`. -/
def isPySpace (c : Char) : Bool :=
  c = ' ' || c = '\t' || c = nl || c = '\r' || c = Char.ofNat 11 || c = Char.ofNat 12

/-- The regex class `[0-9A-Fa-f]`. -/
def isHexCh (c : Char) : Bool :=
  ('0' ≤ c && c ≤ '9') || ('a' ≤ c && c ≤ 'f') || ('A' ≤ c && c ≤ 'F')

/-- The regex class `[a-zA-Z]`. -/
def isAsciiAlpha (c : Char) : Bool :=
  ('a' ≤ c && c ≤ 'z') || ('A' ≤ c && c ≤ 'Z')

/-- Python `str.strip()` on the character list of a string. -/
def pyStrip (s : List Char) : List Char :=
  ((s.dropWhile isPySpace).reverse.dropWhile isPySpace).reverse

/-- `litAt pat cs`: does `cs` start with the literal `pat`? -/
def litAt : List Char → List Char → Bool
  | [], _ => true
  | _ :: _, [] => false
  | p :: ps, c :: cs => p = c && litAt ps cs

/-- `hasSub pat hay`: does `pat` occur somewhere in `hay` (Python's `in`)? -/
def hasSub (pat : List Char) : List Char → Bool
  | [] => litAt pat []
  | c :: cs => litAt pat (c :: cs) || hasSub pat cs

/-- Python's substring test `pat in hay` on strings. -/
def containsSub (hay pat : String) : Bool := hasSub pat.data hay.data

/-- Consume the literal `pat` from the front of `cs`, returning the rest. -/
def dropLit : List Char → List Char → Option (List Char)
  | [], cs => some cs
  | _ :: _, [] => none
  | p :: ps, c :: cs => if p = c then dropLit ps cs else none

theorem dropLit_length {pat cs r : List Char} (h : dropLit pat cs = some r) :
    r.length + pat.length = cs.length := by
  induction pat generalizing cs with
  | nil => simp [dropLit] at h; simp [h]
  | cons p ps ih =>
    cases cs with
    | nil => simp [dropLit] at h
    | cons c cs' =>
      simp only [dropLit] at h
      split at h
      · have := ih h
        simp [List.length_cons]
        omega
      · exact absurd h (by simp)

theorem dropWhile_len_le (p : Char → Bool) (l : List Char) :
    (l.dropWhile p).length ≤ l.length := by
  induction l with
  | nil => simp [List.dropWhile]
  | cons a t ih =>
    simp only [List.dropWhile]
    split
    · exact Nat.le_succ_of_le ih
    · exact Nat.le_refl _

/-- Split `cs` at its first double quote: return the part before the quote
(a `[^"]*` capture) and the part after the quote; `none` when `cs` has no
quote (the pattern's closing `"` then fails). -/
def splitQuote (cs : List Char) : Option (List Char × List Char) :=
  match cs.dropWhile (fun c => c ≠ qc) with
  | _ :: r => some (cs.takeWhile (fun c => c ≠ qc), r)
  | [] => none

theorem splitQuote_length {cs a r : List Char} (h : splitQuote cs = some (a, r)) :
    r.length < cs.length := by
  unfold splitQuote at h
  cases h3 : cs.dropWhile (fun c => c ≠ qc) with
  | nil => rw [h3] at h; exact absurd h (by simp)
  | cons c rest =>
    rw [h3] at h
    simp only [Option.some.injEq, Prod.mk.injEq] at h
    obtain ⟨-, hr⟩ := h
    subst hr
    have hdw : (c :: rest).length ≤ cs.length := by
      rw [← h3]; exact dropWhile_len_le _ cs
    simp only [List.length_cons] at hdw
    omega

theorem dropWhile_quote_append {s : List Char} (r : List Char)
    (hs : ∀ c ∈ s, c ≠ qc) :
    (s ++ qc :: r).dropWhile (fun c => c ≠ qc) = qc :: r := by
  induction s with
  | nil => simp [List.dropWhile]
  | cons a t ih =>
    have ha : a ≠ qc := hs a (by simp)
    simp only [List.cons_append, List.dropWhile]
    split
    · exact ih (fun c hc => hs c (List.mem_cons_of_mem _ hc))
    · rename_i hc
      simp [ha] at hc

theorem takeWhile_quote_append {s : List Char} (r : List Char)
    (hs : ∀ c ∈ s, c ≠ qc) :
    (s ++ qc :: r).takeWhile (fun c => c ≠ qc) = s := by
  induction s with
  | nil => simp [List.takeWhile]
  | cons a t ih =>
    have ha : a ≠ qc := hs a (by simp)
    simp only [List.cons_append, List.takeWhile]
    split
    · exact congrArg (List.cons a) (ih (fun c hc => hs c (List.mem_cons_of_mem _ hc)))
    · rename_i hc
      simp [ha] at hc

theorem splitQuote_append {s : List Char} (r : List Char)
    (hs : ∀ c ∈ s, c ≠ qc) :
    splitQuote (s ++ qc :: r) = some (s, r) := by
  unfold splitQuote
  rw [dropWhile_quote_append r hs, takeWhile_quote_append r hs]

/-! ### `_validate_duplicate_ids`: the scanner for
`re.findall(r'android:id="@\+?id/([^"]+)"', content)`. -/

/-- Literal head of the duplicate-id pattern: `android:id="@`. -/
def idLit : List Char := ("android:id=" ++ dq ++ "@").data

/-- The optional `\+?` of the duplicate-id pattern: consume a leading `+`
if present (greediness is irrelevant here because the following literal
`id/` cannot start with `+`). -/
def dropPlus : List Char → List Char
  | '+' :: t => t
  | cs => cs

theorem dropPlus_length (cs : List Char) : (dropPlus cs).length ≤ cs.length := by
  unfold dropPlus
  split
  · simp
  · exact Nat.le_refl _

/-- Try to match `android:id="@\+?id/([^"]+)"` at the head of `cs`;
on success return the captured group and the rest of the input after the
closing quote. -/
def tryId (cs : List Char) : Option (String × List Char) :=
  match dropLit idLit cs with
  | none => none
  | some r1 =>
    match dropLit ['i', 'd', '/'] (dropPlus r1) with
    | none => none
    | some r2 =>
      match splitQuote r2 with
      | some (name, r3) => if name.isEmpty then none else some (⟨name⟩, r3)
      | none => none

theorem tryId_length {cs : List Char} {n : String} {rest : List Char}
    (h : tryId cs = some (n, rest)) : rest.length < cs.length := by
  unfold tryId at h
  cases h1 : dropLit idLit cs with
  | none => rw [h1] at h; exact absurd h (by simp)
  | some r1 =>
    rw [h1] at h
    have hl1 := dropLit_length h1
    simp only [] at h
    cases h2 : dropLit ['i', 'd', '/'] (dropPlus r1) with
    | none => rw [h2] at h; exact absurd h (by simp)
    | some r2 =>
      rw [h2] at h
      simp only [] at h
      have hl2 := dropLit_length h2
      have hr1' : (dropPlus r1).length ≤ r1.length := dropPlus_length r1
      cases h3 : splitQuote r2 with
      | none => rw [h3] at h; exact absurd h (by simp)
      | some p =>
        obtain ⟨name, r3⟩ := p
        rw [h3] at h
        simp only [] at h
        have hsq := splitQuote_length h3
        split at h
        · exact absurd h (by simp)
        · have hr : r3 = rest := by
            simp only [Option.some.injEq, Prod.mk.injEq] at h
            exact h.2
          subst hr
          simp [idLit, dq] at hl1
          simp [List.length_cons] at hl2
          omega

/-! ### A generic `re.findall` scanner

`re.findall` scans left to right; at each position it tries to match the
pattern, and on success it appends the capture and resumes after the match
(non-overlapping).  `scanF` is the fuelled version (structural recursion,
so that concrete inputs evaluate by `decide`); `scan` instantiates the fuel
with the input length, which suffices because every successful match
consumes at least one character. -/

def scanF {α : Type} (t : List Char → Option (α × List Char)) :
    Nat → List Char → List α
  | 0, _ => []
  | _ + 1, [] => []
  | fuel + 1, c :: cs =>
    match t (c :: cs) with
    | some (r, rest) => r :: scanF t fuel rest
    | none => scanF t fuel cs

/-- `re.findall` of the pattern whose single-position matcher is `t`. -/
def scan {α : Type} (t : List Char → Option (α × List Char))
    (cs : List Char) : List α :=
  scanF t cs.length cs

/-- A matcher shrinks its input: a successful match consumes ≥ 1 character. -/
def Shrinking {α : Type} (t : List Char → Option (α × List Char)) : Prop :=
  ∀ {cs : List Char} {r : α} {rest : List Char},
    t cs = some (r, rest) → rest.length < cs.length

theorem scanF_congr {α : Type} {t : List Char → Option (α × List Char)}
    (hsh : Shrinking t) :
    ∀ f1 : Nat, ∀ (f2 : Nat) (cs : List Char),
      cs.length ≤ f1 → cs.length ≤ f2 → scanF t f1 cs = scanF t f2 cs := by
  intro f1
  induction f1 with
  | zero =>
    intro f2 cs h1 _
    have : cs = [] := List.length_eq_zero.mp (Nat.le_zero.mp h1)
    subst this
    cases f2 <;> simp [scanF]
  | succ f1 ih =>
    intro f2 cs h1 h2
    cases cs with
    | nil => cases f2 <;> simp [scanF]
    | cons c cs' =>
      cases f2 with
      | zero => simp [List.length_cons] at h2
      | succ f2' =>
        simp only [scanF]
        cases h : t (c :: cs') with
        | none =>
          simp only [List.length_cons] at h1 h2
          exact ih f2' cs' (by omega) (by omega)
        | some p =>
          obtain ⟨r, rest⟩ := p
          have hlt := hsh h
          simp only [List.length_cons] at h1 h2 hlt
          exact congrArg (r :: ·) (ih f2' rest (by omega) (by omega))

theorem scan_cons {α : Type} {t : List Char → Option (α × List Char)}
    (hsh : Shrinking t) (c : Char) (cs : List Char) :
    scan t (c :: cs) =
      match t (c :: cs) with
      | some (r, rest) => r :: scan t rest
      | none => scan t cs := by
  unfold scan
  simp only [List.length_cons, scanF]
  cases h : t (c :: cs) with
  | none => exact scanF_congr hsh cs.length cs.length cs (Nat.le_refl _) (Nat.le_refl _)
  | some p =>
    obtain ⟨r, rest⟩ := p
    have hlt := hsh h
    simp only [List.length_cons] at hlt
    exact congrArg (r :: ·) (scanF_congr hsh cs.length rest.length rest (by omega) (Nat.le_refl _))

theorem scan_skip {α : Type} {t : List Char → Option (α × List Char)}
    (hsh : Shrinking t) (p r : List Char)
    (hp : ∀ q, q ≠ [] → q <:+ p → t (q ++ r) = none) :
    scan t (p ++ r) = scan t r := by
  induction p with
  | nil => simp
  | cons a pt ih =>
    rw [List.cons_append, scan_cons hsh]
    have hnone : t ((a :: pt) ++ r) = none :=
      hp (a :: pt) (by simp) (List.suffix_refl _)
    rw [List.cons_append] at hnone
    rw [hnone]
    exact ih (fun q hq hqs => hp q hq (hqs.trans (List.suffix_cons a pt)))

theorem scan_cons_some {α : Type} {t : List Char → Option (α × List Char)}
    (hsh : Shrinking t) {c : Char} {cs rest : List Char} {r : α}
    (h : t (c :: cs) = some (r, rest)) :
    scan t (c :: cs) = r :: scan t rest := by
  rw [scan_cons hsh, h]

theorem scan_cons_none {α : Type} {t : List Char → Option (α × List Char)}
    (hsh : Shrinking t) {c : Char} {cs : List Char}
    (h : t (c :: cs) = none) :
    scan t (c :: cs) = scan t cs := by
  rw [scan_cons hsh, h]

/-- `re.findall(r'android:id="@\+?id/([^"]+)"', content)`. -/
def findIds (cs : List Char) : List String := scan tryId cs

/-- `_validate_duplicate_ids`: one error per distinct duplicated id name
(the Python `set` is modelled as `List.dedup`, whose order is as
unspecified as the set's iteration order). -/
def validate_duplicate_ids (content : String) : List String :=
  let ids := findIds content.data
  ((ids.dedup.filter fun n => ids.count n > 1).map
    fun n => "ID duplicado: " ++ n)

/-! ### `_validate_resource_references`: the scanner for
`re.findall(r'@([^/]+)/([^"\s>]+)', content)`. -/

/-- The class `[^"\s>]` of the reference-name group. -/
def isRefNameCh (c : Char) : Bool := !(c = qc || isPySpace c || c = '>')

/-- Try to match `@([^/]+)/([^"\s>]+)` at the head of `cs`.  Both groups
are greedy runs over classes that exclude their own terminator, so no
backtracking arises: group 1 is the run up to the first `/`, group 2 the
maximal run of name characters after it. -/
def tryRef (cs : List Char) : Option ((String × String) × List Char) :=
  match cs with
  | '@' :: r1 =>
    match r1.dropWhile (fun c => c ≠ '/') with
    | _ :: r2 =>
      if (r1.takeWhile (fun c => c ≠ '/')).isEmpty then none
      else
        if (r2.takeWhile isRefNameCh).isEmpty then none
        else some ((⟨r1.takeWhile (fun c => c ≠ '/')⟩, ⟨r2.takeWhile isRefNameCh⟩),
          r2.dropWhile isRefNameCh)
    | [] => none
  | _ => none

theorem tryRef_length {cs : List Char} {r : String × String} {rest : List Char}
    (h : tryRef cs = some (r, rest)) : rest.length < cs.length := by
  unfold tryRef at h
  split at h
  · rename_i r1
    cases h2 : r1.dropWhile (fun c => c ≠ '/') with
    | nil => rw [h2] at h; exact absurd h (by simp)
    | cons d r2 =>
      rw [h2] at h
      simp only [] at h
      have hr2 : (d :: r2).length ≤ r1.length := by
        rw [← h2]; exact dropWhile_len_le _ r1
      split at h
      · exact absurd h (by simp)
      · split at h
        · exact absurd h (by simp)
        · simp only [Option.some.injEq, Prod.mk.injEq] at h
          obtain ⟨-, hrest⟩ := h
          subst hrest
          have hd : (r2.dropWhile isRefNameCh).length ≤ r2.length :=
            dropWhile_len_le _ r2
          simp only [List.length_cons] at hr2 ⊢
          omega
  · exact absurd h (by simp)

/-- `re.findall(r'@([^/]+)/([^"\s>]+)', content)`. -/
def findRefs (cs : List Char) : List (String × String) := scan tryRef cs

/-- The known resource kinds of `_validate_resource_references`. -/
def knownRefTypes : List String :=
  ["string", "color", "dimen", "style", "drawable", "layout", "id", "android"]

/-- `_validate_resource_references`: one warning per reference whose type
is not a known resource kind. -/
def validate_resource_references (content : String) : List String :=
  (findRefs content.data).filterMap fun tn =>
    if knownRefTypes.contains tn.1 then none
    else some ("Tipo de recurso posiblemente inválido: @" ++ tn.1 ++ "/" ++ tn.2)

/-! ### `_validate_layout_file` -/

/-- The root ViewGroup allow-list of `_validate_layout_file`. -/
def root_tags : List String :=
  ["LinearLayout", "RelativeLayout", "ConstraintLayout", "FrameLayout",
   "TableLayout", "ScrollView", "androidx.constraintlayout.widget.ConstraintLayout"]

/-- `_validate_layout_file`, as an `(errors, warnings)` pair appended in
source order: the root-tag warning, the empty-dimension error, the
resource-reference warnings, the duplicate-id errors. -/
def validate_layout_file (content : String) : List String × List String :=
  let warnRoot :=
    if root_tags.any (fun tag => containsSub content ("<" ++ tag)) then []
    else ["Layout podría necesitar un ViewGroup root válido"]
  let errDim :=
    if containsSub content ("android:layout_width=" ++ dq ++ dq)
        || containsSub content ("android:layout_height=" ++ dq ++ dq) then
      ["Atributos layout_width o layout_height vacíos"]
    else []
  (errDim ++ validate_duplicate_ids content,
   warnRoot ++ validate_resource_references content)

/-! ### `_validate_strings_file` -/

/-- Does `<string[^>]*></string>` match at the head of `cs`?  The `[^>]*`
run necessarily stops at the first `>`, which must then start the literal
`></string>`. -/
def tryEmptyStr (cs : List Char) : Bool :=
  match dropLit ("<string").data cs with
  | none => false
  | some r1 =>
    match r1.dropWhile (fun c => c ≠ '>') with
    | _ :: r2 => litAt ("</string>").data r2
    | [] => false

/-- `re.search(r'<string[^>]*></string>', content)` as a Bool. -/
def hasEmptyString : List Char → Bool
  | [] => false
  | c :: cs => tryEmptyStr (c :: cs) || hasEmptyString cs

/-- The lookahead `[a-zA-Z]+;`: a nonempty ASCII-letter run followed
immediately by `;` (backtracking collapses: any shorter letter prefix is
followed by a letter, never by `;`). -/
def isEntityTail (cs : List Char) : Bool :=
  !(cs.takeWhile isAsciiAlpha).isEmpty &&
    (match cs.dropWhile isAsciiAlpha with
     | ';' :: _ => true
     | _ => false)

/-- `re.search(r'[&<>](?![a-zA-Z]+;)', content)` as a Bool. -/
def hasUnescaped : List Char → Bool
  | [] => false
  | c :: cs => ((c = '&' || c = '<' || c = '>') && !isEntityTail cs) || hasUnescaped cs

/-- `_validate_strings_file` (two possible warnings, no errors). -/
def validate_strings_file (content : String) : List String × List String :=
  ([],
   (if hasEmptyString content.data then ["Se encontraron strings vacíos"] else []) ++
   (if hasUnescaped content.data then ["Posibles caracteres especiales sin escapar"] else []))

/-! ### `_validate_colors_file` -/

/-- The literal `</color>`. -/
def closeColor : List Char := ("</color>").data

/-- The lazy `(.*?)</color>` tail of the color pattern: find the shortest
prefix of non-newline characters after which `</color>` matches, returning
that prefix (the capture) and the input after the closing literal. -/
def splitClose : List Char → Option (List Char × List Char)
  | [] => none
  | c :: cs =>
    match dropLit closeColor (c :: cs) with
    | some r => some ([], r)
    | none =>
      if c = nl then none
      else
        match splitClose cs with
        | some (a, b) => some (c :: a, b)
        | none => none

theorem splitClose_length {cs a b : List Char} (h : splitClose cs = some (a, b)) :
    b.length < cs.length := by
  induction cs generalizing a with
  | nil => exact absurd h (by simp [splitClose])
  | cons c cs' ih =>
    unfold splitClose at h
    cases h1 : dropLit closeColor (c :: cs') with
    | some r =>
      rw [h1] at h
      have := dropLit_length h1
      simp only [Option.some.injEq, Prod.mk.injEq] at h
      obtain ⟨-, hb⟩ := h
      subst hb
      simp [closeColor] at this
      simp [List.length_cons]
      omega
    | none =>
      rw [h1] at h
      simp only [] at h
      split at h
      · exact absurd h (by simp)
      · cases h2 : splitClose cs' with
        | none => rw [h2] at h; exact absurd h (by simp)
        | some p =>
          obtain ⟨a', b'⟩ := p
          rw [h2] at h
          simp only [Option.some.injEq, Prod.mk.injEq] at h
          obtain ⟨-, hb⟩ := h
          subst hb
          have := ih h2
          simp [List.length_cons]
          omega

/-- Try to match `<color[^>]*>(.*?)</color>` at the head of `cs`. -/
def tryColor (cs : List Char) : Option (String × List Char) :=
  match dropLit ("<color").data cs with
  | none => none
  | some r1 =>
    match r1.dropWhile (fun c => c ≠ '>') with
    | _ :: r2 =>
      match splitClose r2 with
      | some (a, b) => some (⟨a⟩, b)
      | none => none
    | [] => none

theorem tryColor_length {cs : List Char} {v : String} {rest : List Char}
    (h : tryColor cs = some (v, rest)) : rest.length < cs.length := by
  unfold tryColor at h
  cases h1 : dropLit ("<color").data cs with
  | none => rw [h1] at h; exact absurd h (by simp)
  | some r1 =>
    rw [h1] at h
    simp only [] at h
    have hl1 := dropLit_length h1
    cases h2 : r1.dropWhile (fun c => c ≠ '>') with
    | nil => rw [h2] at h; exact absurd h (by simp)
    | cons d r2 =>
      rw [h2] at h
      simp only [] at h
      have hr2 : (d :: r2).length ≤ r1.length := by
        rw [← h2]; exact dropWhile_len_le _ r1
      cases h3 : splitClose r2 with
      | none => rw [h3] at h; exact absurd h (by simp)
      | some p =>
        obtain ⟨a, b⟩ := p
        rw [h3] at h
        simp only [Option.some.injEq, Prod.mk.injEq] at h
        obtain ⟨-, hb⟩ := h
        subst hb
        have := splitClose_length h3
        simp only [List.length_cons] at hr2
        have h6 : (("<color").data).length = 6 := by decide
        omega

/-- `re.findall(r'<color[^>]*>(.*?)</color>', content)`. -/
def findColors (cs : List Char) : List String := scan tryColor cs

/-- `re.match(r'^#[0-9A-Fa-f]{3,8}$', s)` as a Bool: the whole input is a
`#` followed by 3 to 8 hex digits. -/
def reFullHex : List Char → Bool
  | c :: rest =>
    c = '#' && (decide (3 ≤ rest.length) && decide (rest.length ≤ 8) && rest.all isHexCh)
  | [] => false

/-- `_validate_colors_file` (errors only). -/
def validate_colors_file (content : String) : List String :=
  (findColors content.data).filterMap fun v =>
    if reFullHex (pyStrip v.data) then none
    else some ("Formato de color inválido: " ++ v)

/-! ### `_validate_styles_file` -/

/-- Try to match `parent="([^"]*)"` at the head of `cs`. -/
def tryParent (cs : List Char) : Option (String × List Char) :=
  match dropLit ("parent=" ++ dq).data cs with
  | none => none
  | some r1 =>
    match splitQuote r1 with
    | some (v, r2) => some (⟨v⟩, r2)
    | none => none

theorem tryParent_length {cs : List Char} {v : String} {rest : List Char}
    (h : tryParent cs = some (v, rest)) : rest.length < cs.length := by
  unfold tryParent at h
  cases h1 : dropLit ("parent=" ++ dq).data cs with
  | none => rw [h1] at h; exact absurd h (by simp)
  | some r1 =>
    rw [h1] at h
    simp only [] at h
    have hl1 := dropLit_length h1
    cases h2 : splitQuote r1 with
    | none => rw [h2] at h; exact absurd h (by simp)
    | some p =>
      obtain ⟨a, b⟩ := p
      rw [h2] at h
      simp only [Option.some.injEq, Prod.mk.injEq] at h
      obtain ⟨-, hb⟩ := h
      subst hb
      have := splitQuote_length h2
      have h8 : ((("parent=" ++ dq)).data).length = 8 := by decide
      omega

/-- `re.findall(r'parent="([^"]*)"', content)`. -/
def findParents (cs : List Char) : List String := scan tryParent cs

/-- `_validate_styles_file` (warnings only). -/
def validate_styles_file (content : String) : List String :=
  (findParents content.data).filterMap fun p =>
    if p.startsWith "@style/" || p.startsWith "android:" then none
    else some ("Referencia de estilo padre podría ser inválida: " ++ p)

/-! ### `_validate_manifest_file` -/

/-- The tail `android:name="([^"]*)"` of the permission pattern, matched at
a fixed position. -/
def permName (cs : List Char) : Option (String × List Char) :=
  match dropLit ("android:name=" ++ dq).data cs with
  | none => none
  | some r1 =>
    match splitQuote r1 with
    | some (v, r2) => some (⟨v⟩, r2)
    | none => none

theorem permName_length {cs : List Char} {v : String} {rest : List Char}
    (h : permName cs = some (v, rest)) : rest.length < cs.length := by
  unfold permName at h
  cases h1 : dropLit ("android:name=" ++ dq).data cs with
  | none => rw [h1] at h; exact absurd h (by simp)
  | some r1 =>
    rw [h1] at h
    simp only [] at h
    have hl1 := dropLit_length h1
    cases h2 : splitQuote r1 with
    | none => rw [h2] at h; exact absurd h (by simp)
    | some p =>
      obtain ⟨a, b⟩ := p
      rw [h2] at h
      simp only [Option.some.injEq, Prod.mk.injEq] at h
      obtain ⟨-, hb⟩ := h
      subst hb
      have := splitQuote_length h2
      have h14 : ((("android:name=" ++ dq)).data).length = 14 := by decide
      omega

/-- The greedy `[^>]*` before `android:name="`: try the rightmost offset
first (offset `k` characters into the run), backtracking leftwards. -/
def tryPermAt (r1 : List Char) : Nat → Option (String × List Char)
  | 0 => permName r1
  | k + 1 =>
    match permName (r1.drop (k + 1)) with
    | some v => some v
    | none => tryPermAt r1 k

theorem tryPermAt_length {r1 : List Char} {k : Nat} {v : String} {rest : List Char}
    (h : tryPermAt r1 k = some (v, rest)) : rest.length < r1.length := by
  induction k with
  | zero => exact permName_length h
  | succ k ih =>
    unfold tryPermAt at h
    cases h1 : permName (r1.drop (k + 1)) with
    | some p =>
      rw [h1] at h
      simp only [Option.some.injEq] at h
      subst h
      have := permName_length h1
      have hd : (r1.drop (k + 1)).length ≤ r1.length := by
        rw [List.length_drop]; omega
      omega
    | none =>
      rw [h1] at h
      exact ih h

/-- Try to match `<uses-permission[^>]*android:name="([^"]*)"` at the head
of `cs`. -/
def tryPerm (cs : List Char) : Option (String × List Char) :=
  match dropLit ("<uses-permission").data cs with
  | none => none
  | some r1 => tryPermAt r1 (r1.takeWhile (fun c => c ≠ '>')).length

theorem tryPerm_length {cs : List Char} {v : String} {rest : List Char}
    (h : tryPerm cs = some (v, rest)) : rest.length < cs.length := by
  unfold tryPerm at h
  cases h1 : dropLit ("<uses-permission").data cs with
  | none => rw [h1] at h; exact absurd h (by simp)
  | some r1 =>
    rw [h1] at h
    simp only [] at h
    have hl1 := dropLit_length h1
    have := tryPermAt_length h
    have h16 : (("<uses-permission").data).length = 16 := by decide
    omega

/-- `re.findall(r'<uses-permission[^>]*android:name="([^"]*)"', content)`. -/
def findPerms (cs : List Char) : List String := scan tryPerm cs

/-- `_validate_manifest_file`: required-element errors and the
duplicate-permission warning (`len(perms) != len(set(perms))`). -/
def validate_manifest_file (content : String) : List String × List String :=
  let errs := (["manifest", "application"].filterMap fun el =>
    if containsSub content ("<" ++ el) then none
    else some ("Elemento requerido faltante: <" ++ el ++ ">"))
  let perms := findPerms content.data
  (errs, if perms.length ≠ perms.dedup.length then ["Posibles permisos duplicados"] else [])

/-! ### Dispatch and `validate_xml_file` -/

/-- `_validate_values_file`: sub-dispatch on the exact filename. -/
def validate_values_file (content : String) (filename : String) :
    List String × List String :=
  if filename = "strings.xml" then validate_strings_file content
  else if filename = "colors.xml" then (validate_colors_file content, [])
  else if filename = "styles.xml" then ([], validate_styles_file content)
  else ([], [])

/-- Which type-specific rule set `validate_xml_file` runs. -/
inductive RuleSet where
  | layoutR
  | valuesR (filename : String)
  | manifestR
  | noRules
  deriving DecidableEq, Repr

/-- A file path, modelled as its nonempty list of `/`-separated components
(the last component is the filename).  `str(Path(p).parent)` of a
one-component relative path is `"."`. -/
def pathParentStr (parts : List String) : String :=
  match parts.dropLast with
  | [] => "."
  | ps => String.intercalate "/" ps

/-- `Path(p).name`: the last path component. -/
def pathName (parts : List String) : String := (parts.getLast?).getD ""

/-- The dispatch chain of `validate_xml_file`: note it tests the string of
the WHOLE parent path, `str(file_path_obj.parent)`. -/
def dispatchOf (parts : List String) : RuleSet :=
  if containsSub (pathParentStr parts) "layout" then .layoutR
  else if containsSub (pathParentStr parts) "values" then .valuesR (pathName parts)
  else if pathName parts = "AndroidManifest.xml" then .manifestR
  else .noRules

/-- Run the selected type-specific rule set, returning `(errors, warnings)`. -/
def runRules : RuleSet → String → List String × List String
  | .layoutR, c => validate_layout_file c
  | .valuesR f, c => validate_values_file c f
  | .manifestR, c => validate_manifest_file c
  | .noRules, _ => ([], [])

/-- Outcome of `ET.fromstring(content)`, abstracting the external XML
parser: success, a `ParseError`, or any other exception. -/
inductive ParseOutcome where
  | ok
  | parseError (msg : String)
  | otherError (msg : String)
  deriving DecidableEq, Repr

/-- The boolean returned by `_validate_xml_syntax`. -/
def xmlValid : ParseOutcome → Bool
  | .ok => true
  | .parseError _ => false
  | .otherError _ => false

/-- The errors appended by `_validate_xml_syntax`. -/
def parseErrList : ParseOutcome → List String
  | .ok => []
  | .parseError m => ["Error de sintaxis XML: " ++ m]
  | .otherError m => ["Error al procesar XML: " ++ m]

/-- The per-file result dict of `validate_xml_file`. -/
structure ValidationResult where
  valid : Bool
  errors : List String
  warnings : List String
  deriving DecidableEq, Repr

/-- `validate_xml_file` with the content already in hand (the read-failure
branch is not taken), parameterised by the parse oracle: the syntax check
runs first, then the path-dispatched rule set, and
`valid = xml_valid and len(errors) == 0`. -/
def validate_xml_file (parse : String → ParseOutcome) (parts : List String)
    (content : String) : ValidationResult :=
  let rules := runRules (dispatchOf parts) content
  let errs := parseErrList (parse content) ++ rules.1
  { valid := xmlValid (parse content) && errs.isEmpty
    errors := errs
    warnings := rules.2 }

/-! ### `validate_project_resources`

The aggregator's interactions with the file system are abstracted as data:
whether the project root and `res/` exist, the recursive list of `res/`
XML files (each with the outcome of its own `validate_xml_file` call: a
result, or an exception caught by the `except` clause), and the optional
top-level manifest's result. -/

/-- Outcome of validating one discovered file: a result, or an exception
raised during its validation (caught by the aggregator). -/
inductive FileOutcome where
  | res (r : ValidationResult)
  | exn (msg : String)
  deriving DecidableEq, Repr

/-- One `*.xml` file found under `res/`: its full path string, its
basename, and its validation outcome. -/
structure XmlFile where
  path : String
  name : String
  outcome : FileOutcome
  deriving DecidableEq, Repr

/-- The `validation_results` dict of `validate_project_resources`
(`file_results` keeps dict insertion order as an association list). -/
structure ProjectSummary where
  total_files : Nat
  valid_files : Nat
  invalid_files : Nat
  files_with_warnings : Nat
  errors : List String
  warnings : List String
  file_results : List (String × ValidationResult)
  deriving DecidableEq, Repr

/-- The initial `validation_results` dict. -/
def initSummary : ProjectSummary := ⟨0, 0, 0, 0, [], [], []⟩

/-- Prefix every message with `name: ` as the aggregator does. -/
def prefMsgs (name : String) (msgs : List String) : List String :=
  msgs.map fun m => name ++ ": " ++ m

/-- The body of the per-file loop of `validate_project_resources`. -/
def processFile (acc : ProjectSummary) (f : XmlFile) : ProjectSummary :=
  match f.outcome with
  | .res r =>
    let acc1 := { acc with file_results := acc.file_results ++ [(f.path, r)] }
    let acc2 :=
      if r.valid then { acc1 with valid_files := acc1.valid_files + 1 }
      else { acc1 with invalid_files := acc1.invalid_files + 1,
                       errors := acc1.errors ++ prefMsgs f.name r.errors }
    if r.warnings.isEmpty then acc2
    else { acc2 with files_with_warnings := acc2.files_with_warnings + 1,
                     warnings := acc2.warnings ++ prefMsgs f.name r.warnings }
  | .exn m =>
    { acc with invalid_files := acc.invalid_files + 1,
               errors := acc.errors ++ ["Error procesando " ++ f.name ++ ": " ++ m] }

/-- The manifest block of `validate_project_resources` (the top-level
`AndroidManifest.xml`, validated when present). -/
def addManifest (apk : String) (s : ProjectSummary) :
    Option ValidationResult → ProjectSummary
  | none => s
  | some r =>
    let s1 := { s with
      file_results := s.file_results ++ [(apk ++ "/AndroidManifest.xml", r)],
      total_files := s.total_files + 1 }
    let s2 :=
      if r.valid then { s1 with valid_files := s1.valid_files + 1 }
      else { s1 with invalid_files := s1.invalid_files + 1,
                     errors := s1.errors ++ prefMsgs "AndroidManifest.xml" r.errors }
    if r.warnings.isEmpty then s2
    else { s2 with files_with_warnings := s2.files_with_warnings + 1,
                   warnings := s2.warnings ++ prefMsgs "AndroidManifest.xml" r.warnings }

/-- `validate_project_resources`: short-circuit on a missing root, then
fold the `res/` files (when `res/` exists), then the manifest block. -/
def validate_project_resources (apk : String) (rootExists resExists : Bool)
    (files : List XmlFile) (manifest : Option ValidationResult) : ProjectSummary :=
  if rootExists = false then
    { initSummary with errors := ["Ruta de proyecto no existe: " ++ apk] }
  else
    let s1 :=
      if resExists then
        (files.foldl processFile { initSummary with total_files := files.length })
      else initSummary
    addManifest apk s1 manifest

/-! ### `suggest_fixes` -/

/-- The six fixed suggestion strings of `suggest_fixes`, in table order. -/
def sugDim : String :=
  "Especificar " ++ ⟨[Char.ofNat 39]⟩ ++ "wrap_content" ++ ⟨[Char.ofNat 39]⟩ ++ ", "
    ++ ⟨[Char.ofNat 39]⟩ ++ "match_parent" ++ ⟨[Char.ofNat 39]⟩
    ++ " o un valor dp específico"

def sugDup : String := "Renombrar o eliminar IDs duplicados en el layout"

def sugSyn : String := "Verificar que todas las etiquetas XML estén correctamente cerradas"

def sugColor : String := "Usar formato hexadecimal válido: #RRGGBB o #AARRGGBB"

def sugRes : String := "Verificar que el recurso referenciado existe en el proyecto"

def sugDoc : String := "Revisar la documentación de Android para el elemento específico"

/-- Python `str.lower()` at its ASCII meaning. -/
def pyLower (s : String) : String := ⟨s.data.map Char.toLower⟩

/-- The per-error keyword table of `suggest_fixes` (first match wins). -/
def suggestionFor (error : String) : String :=
  let e := pyLower error
  if containsSub e "layout_width" || containsSub e "layout_height" then sugDim
  else if containsSub e "duplicate" then sugDup
  else if containsSub e "syntax" then sugSyn
  else if containsSub e "color" then sugColor
  else if containsSub e "resource" then sugRes
  else sugDoc

/-- `suggest_fixes`: map the table over the errors, then deduplicate
(`list(set(...))`, whose order is unspecified; modelled as `List.dedup`). -/
def suggest_fixes (errors : List String) : List String :=
  (errors.map suggestionFor).dedup

/-! ## Spec-side definitions

Definitions that follow the CLAIMS' words (not the source), used to compare
claimed behaviour with the code's behaviour. -/

/-- Claimed color format: `#` followed by exactly 3, 4, 6 or 8 hexadecimal
digits (the code's regex instead allows any count from 3 to 8). -/
def claimColorValid (s : List Char) : Bool :=
  match s with
  | c :: ds =>
    c = '#' && (ds.length = 3 || ds.length = 4 || ds.length = 6 || ds.length = 8)
      && ds.all isHexCh
  | [] => false

/-- Claimed parent-directory NAME (the last component of the parent), as
opposed to the full parent path string the code tests. -/
def claimParentName (parts : List String) : String :=
  ((parts.dropLast).getLast?).getD ""

/-- Claimed dispatch, following the claim's words (`parent directory name
contains ...`). -/
def claimDispatchOf (parts : List String) : RuleSet :=
  if containsSub (claimParentName parts) "layout" then .layoutR
  else if containsSub (claimParentName parts) "values" then .valuesR (pathName parts)
  else if pathName parts = "AndroidManifest.xml" then .manifestR
  else .noRules

/-- Claimed duplicate-id extraction: only `android:id="@+id/<name>"`
occurrences, with the `+` mandatory (the code's regex makes it optional). -/
def tryClaimId (cs : List Char) : Option (String × List Char) :=
  match dropLit ("android:id=" ++ dq ++ "@+id/").data cs with
  | none => none
  | some r1 =>
    match splitQuote r1 with
    | some (name, r2) => if name.isEmpty then none else some (⟨name⟩, r2)
    | none => none

theorem tryClaimId_length {cs : List Char} {n : String} {rest : List Char}
    (h : tryClaimId cs = some (n, rest)) : rest.length < cs.length := by
  unfold tryClaimId at h
  cases h1 : dropLit ("android:id=" ++ dq ++ "@+id/").data cs with
  | none => rw [h1] at h; exact absurd h (by simp)
  | some r1 =>
    rw [h1] at h
    simp only [] at h
    have hl1 := dropLit_length h1
    cases h2 : splitQuote r1 with
    | none => rw [h2] at h; exact absurd h (by simp)
    | some p =>
      obtain ⟨a, b⟩ := p
      rw [h2] at h
      simp only [] at h
      split at h
      · exact absurd h (by simp)
      · simp only [Option.some.injEq, Prod.mk.injEq] at h
        obtain ⟨-, hb⟩ := h
        subst hb
        have := splitQuote_length h2
        have h17 : ((("android:id=" ++ dq ++ "@+id/")).data).length = 17 := by decide
        omega

/-- The extraction the claim describes for the duplicate-ID check. -/
def claimFindIds (cs : List Char) : List String := scan tryClaimId cs

/-! ## Helper lemmas for the claim theorems -/

theorem strAppend_injective (p : String) :
    Function.Injective (fun s : String => p ++ s) := by
  intro a b hab
  have hd : (p ++ a).data = (p ++ b).data := congrArg String.data hab
  rw [String.data_append, String.data_append] at hd
  exact String.ext (List.append_cancel_left hd)

theorem filterMap_if_not (f : String → String) (p : String → Bool) (l : List String) :
    (l.filterMap fun v => if p v then none else some (f v))
      = ((l.filter fun v => !p v).map f) := by
  induction l with
  | nil => rfl
  | cons a t ih =>
    by_cases hp : p a = true <;>
      simp [List.filterMap_cons, List.filter_cons, hp, ih]

theorem litAt_append (p r : List Char) : litAt p (p ++ r) = true := by
  induction p with
  | nil => rfl
  | cons a t ih => simp [litAt, ih]

theorem hasSub_append (x p : List Char) : hasSub p (x ++ p) = true := by
  induction x with
  | nil =>
    cases p with
    | nil => rfl
    | cons a t =>
      simp only [List.nil_append, hasSub]
      have : litAt (a :: t) (a :: t) = true := by
        have := litAt_append (a :: t) []
        simpa using this
      simp [this]
  | cons b x' ih =>
    simp only [List.cons_append, hasSub]
    simp [ih]

theorem takeWhile_middle (p : Char → Bool) (s : List Char) (x : Char) (r : List Char)
    (hs : ∀ c ∈ s, p c = true) (hx : p x = false) :
    (s ++ x :: r).takeWhile p = s ∧ (s ++ x :: r).dropWhile p = x :: r := by
  induction s with
  | nil => simp [List.takeWhile, List.dropWhile, hx]
  | cons a t ih =>
    have ha : p a = true := hs a (by simp)
    obtain ⟨ht, hd⟩ := ih (fun c hc => hs c (List.mem_cons_of_mem _ hc))
    constructor
    · simp only [List.cons_append, List.takeWhile]
      split
      · exact congrArg (List.cons a) ht
      · rename_i hc
        simp [ha] at hc
    · simp only [List.cons_append, List.dropWhile]
      split
      · exact hd
      · rename_i hc
        simp [ha] at hc

/-! ## Claim theorems -/

/-- C3: for every call to `validate_xml_file` (content in hand), the
returned result satisfies `valid = (well-formed XML ∧ errors = [])`;
`valid` is a function of the parse outcome and the error list alone, so
the warnings never affect it. -/
theorem C3_valid_invariant (parse : String → ParseOutcome) (parts : List String)
    (content : String) :
    ((validate_xml_file parse parts content).valid = true ↔
        (parse content = ParseOutcome.ok ∧
         (validate_xml_file parse parts content).errors = []))
    ∧ (validate_xml_file parse parts content).valid =
        (xmlValid (parse content)
          && (validate_xml_file parse parts content).errors.isEmpty) := by
  cases hp : parse content <;>
    simp [validate_xml_file, xmlValid, parseErrList, hp, List.isEmpty_iff]

/-- C3 witness: the invariant evaluated at a concrete call. -/
theorem C3_valid_invariant_witness :
    ((validate_xml_file (fun _ => ParseOutcome.ok) ["res", "values", "arrays.xml"]
        "<resources></resources>").valid = true ↔
      ((fun _ => ParseOutcome.ok) "<resources></resources>" = ParseOutcome.ok ∧
       (validate_xml_file (fun _ => ParseOutcome.ok) ["res", "values", "arrays.xml"]
          "<resources></resources>").errors = []))
    ∧ (validate_xml_file (fun _ => ParseOutcome.ok) ["res", "values", "arrays.xml"]
        "<resources></resources>").valid =
        (xmlValid ((fun _ => ParseOutcome.ok) "<resources></resources>")
          && (validate_xml_file (fun _ => ParseOutcome.ok) ["res", "values", "arrays.xml"]
              "<resources></resources>").errors.isEmpty) :=
  C3_valid_invariant (fun _ => ParseOutcome.ok) ["res", "values", "arrays.xml"]
    "<resources></resources>"

/-- C6: the type-specific rule set selected by the path runs whatever the
parse outcome was — its errors and warnings appear in the result next to
the syntax error — and `valid` is false whenever the syntax check failed,
true exactly when it passed with zero errors. -/
theorem C6_no_short_circuit (parse : String → ParseOutcome) (parts : List String)
    (content : String) :
    (validate_xml_file parse parts content).errors
        = parseErrList (parse content) ++ (runRules (dispatchOf parts) content).1
    ∧ (validate_xml_file parse parts content).warnings
        = (runRules (dispatchOf parts) content).2
    ∧ (xmlValid (parse content) = false →
        (validate_xml_file parse parts content).valid = false)
    ∧ ((validate_xml_file parse parts content).valid = true ↔
        (xmlValid (parse content) = true ∧
         (validate_xml_file parse parts content).errors = [])) := by
  refine ⟨rfl, rfl, ?_, ?_⟩
  · intro h
    simp [validate_xml_file, h]
  · simp [validate_xml_file, List.isEmpty_iff]

/-- C6 witness: a failed parse over a layout path still yields the layout
rule set's warnings, and `valid` is false. -/
theorem C6_no_short_circuit_witness :
    (validate_xml_file (fun _ => ParseOutcome.parseError "mismatched tag")
        ["res", "layout", "main.xml"] "<LinearLayout></LinearLayout>").valid = false
    ∧ (validate_xml_file (fun _ => ParseOutcome.parseError "mismatched tag")
        ["res", "layout", "main.xml"] "<LinearLayout></LinearLayout>").warnings
        = (runRules (dispatchOf ["res", "layout", "main.xml"])
            "<LinearLayout></LinearLayout>").2 := by
  have h := C6_no_short_circuit (fun _ => ParseOutcome.parseError "mismatched tag")
    ["res", "layout", "main.xml"] "<LinearLayout></LinearLayout>"
  exact ⟨h.2.2.1 rfl, h.2.1⟩

/-- C2 (amended): dispatch is a pure function of the path, but the
`layout` / `values` tests are on the string of the WHOLE parent path, not
on the parent directory's name; values files sub-dispatch on the exact
filename, any other filename under values gets no sub-rule. -/
theorem C2_dispatch_characterisation (parts : List String) :
    (dispatchOf parts = RuleSet.layoutR ↔
        containsSub (pathParentStr parts) "layout" = true)
    ∧ (∀ f, dispatchOf parts = RuleSet.valuesR f ↔
        (containsSub (pathParentStr parts) "layout" = false ∧
         containsSub (pathParentStr parts) "values" = true ∧ f = pathName parts))
    ∧ (dispatchOf parts = RuleSet.manifestR ↔
        (containsSub (pathParentStr parts) "layout" = false ∧
         containsSub (pathParentStr parts) "values" = false ∧
         pathName parts = "AndroidManifest.xml"))
    ∧ (dispatchOf parts = RuleSet.noRules ↔
        (containsSub (pathParentStr parts) "layout" = false ∧
         containsSub (pathParentStr parts) "values" = false ∧
         pathName parts ≠ "AndroidManifest.xml"))
    ∧ (∀ parse content,
        (validate_xml_file parse parts content).errors
          = parseErrList (parse content) ++ (runRules (dispatchOf parts) content).1
        ∧ (validate_xml_file parse parts content).warnings
          = (runRules (dispatchOf parts) content).2)
    ∧ (∀ f content, f ≠ "strings.xml" → f ≠ "colors.xml" → f ≠ "styles.xml" →
        runRules (RuleSet.valuesR f) content = ([], [])) := by
  refine ⟨?_, ?_, ?_, ?_, fun parse content => ⟨rfl, rfl⟩, ?_⟩
  · cases h1 : containsSub (pathParentStr parts) "layout" <;>
      cases h2 : containsSub (pathParentStr parts) "values" <;>
      by_cases h3 : pathName parts = "AndroidManifest.xml" <;>
      simp [dispatchOf, h1, h2, h3]
  · intro f
    cases h1 : containsSub (pathParentStr parts) "layout" <;>
      cases h2 : containsSub (pathParentStr parts) "values" <;>
      by_cases h3 : pathName parts = "AndroidManifest.xml" <;>
      simp [dispatchOf, h1, h2, h3] <;> exact eq_comm
  · cases h1 : containsSub (pathParentStr parts) "layout" <;>
      cases h2 : containsSub (pathParentStr parts) "values" <;>
      by_cases h3 : pathName parts = "AndroidManifest.xml" <;>
      simp [dispatchOf, h1, h2, h3]
  · cases h1 : containsSub (pathParentStr parts) "layout" <;>
      cases h2 : containsSub (pathParentStr parts) "values" <;>
      by_cases h3 : pathName parts = "AndroidManifest.xml" <;>
      simp [dispatchOf, h1, h2, h3]
  · intro f content hf1 hf2 hf3
    simp [runRules, validate_values_file, hf1, hf2, hf3]

/-- C2 witness: the characterisation evaluated at a concrete values path
and a concrete unknown values filename. -/
theorem C2_dispatch_characterisation_witness :
    dispatchOf ["res", "values", "colors.xml"] = RuleSet.valuesR "colors.xml"
    ∧ runRules (RuleSet.valuesR "arrays.xml") "<resources></resources>" = ([], []) := by
  have h := C2_dispatch_characterisation ["res", "values", "colors.xml"]
  refine ⟨(h.2.1 "colors.xml").mpr ⟨by decide, by decide, by decide⟩, ?_⟩
  exact h.2.2.2.2.2 "arrays.xml" "<resources></resources>"
    (by decide) (by decide) (by decide)

/-- C2 counterexample: for `mylayout/values/strings.xml` the parent
directory NAME is `values`, so the claim predicts the values/strings rules;
the code tests the whole parent path string `mylayout/values`, which
contains `layout`, so the layout rules run instead. -/
theorem C2_counterexample :
    dispatchOf ["mylayout", "values", "strings.xml"] = RuleSet.layoutR
    ∧ claimDispatchOf ["mylayout", "values", "strings.xml"]
        = RuleSet.valuesR "strings.xml"
    ∧ dispatchOf ["mylayout", "values", "strings.xml"]
        ≠ claimDispatchOf ["mylayout", "values", "strings.xml"]
    ∧ (validate_xml_file (fun _ => ParseOutcome.ok)
        ["mylayout", "values", "strings.xml"] "<resources></resources>").warnings
        = ["Layout podría necesitar un ViewGroup root válido"] := by
  refine ⟨by decide, by decide, by decide, by decide⟩

/-- The association list the `res/` loop records: one entry per file whose
validation returned a result (a file that raised records nothing). -/
def resResultsOf (files : List XmlFile) : List (String × ValidationResult) :=
  files.filterMap fun f =>
    match f.outcome with
    | .res r => some (f.path, r)
    | .exn _ => none

/-- The top-level error messages contributed by one `res/` file. -/
def fileErrContrib (f : XmlFile) : List String :=
  match f.outcome with
  | .res r => if r.valid then [] else prefMsgs f.name r.errors
  | .exn m => ["Error procesando " ++ f.name ++ ": " ++ m]

/-- How much one `res/` file adds to `invalid_files`: 1 when its result is
invalid or its validation raised, 0 otherwise. -/
def invContrib (f : XmlFile) : Nat :=
  match f.outcome with
  | .res r => if r.valid then 0 else 1
  | .exn _ => 1

theorem processFile_spec (a : ProjectSummary) (f : XmlFile) :
    (processFile a f).total_files = a.total_files
    ∧ (processFile a f).valid_files + (processFile a f).invalid_files
        = a.valid_files + a.invalid_files + 1
    ∧ (processFile a f).file_results = a.file_results ++ resResultsOf [f]
    ∧ (processFile a f).errors = a.errors ++ fileErrContrib f
    ∧ (processFile a f).invalid_files = a.invalid_files + invContrib f := by
  obtain ⟨p, n, o⟩ := f
  cases o with
  | res r =>
    by_cases hv : r.valid = true <;> by_cases hw : r.warnings.isEmpty = true <;>
      simp [processFile, resResultsOf, fileErrContrib, invContrib, hv, hw] <;> omega
  | exn m =>
    simp [processFile, resResultsOf, fileErrContrib, invContrib]
    omega

theorem foldl_processFile_spec (l : List XmlFile) (a : ProjectSummary) :
    (l.foldl processFile a).total_files = a.total_files
    ∧ (l.foldl processFile a).valid_files + (l.foldl processFile a).invalid_files
        = a.valid_files + a.invalid_files + l.length
    ∧ (l.foldl processFile a).file_results = a.file_results ++ resResultsOf l
    ∧ (l.foldl processFile a).errors = a.errors ++ (l.map fileErrContrib).flatten
    ∧ (l.foldl processFile a).invalid_files
        = a.invalid_files + (l.map invContrib).sum := by
  induction l generalizing a with
  | nil => simp [resResultsOf]
  | cons f t ih =>
    obtain ⟨h1, h2, h3, h4, h5⟩ := processFile_spec a f
    obtain ⟨g1, g2, g3, g4, g5⟩ := ih (processFile a f)
    refine ⟨by simp [List.foldl_cons, g1, h1], ?_, ?_, ?_, ?_⟩
    · simp only [List.foldl_cons] at g2 ⊢
      rw [g2, h2]
      simp [List.length_cons]
      omega
    · simp only [List.foldl_cons] at g3 ⊢
      rw [g3, h3]
      simp [resResultsOf, List.filterMap_cons]
      cases ho : f.outcome <;> simp [ho]
    · simp only [List.foldl_cons] at g4 ⊢
      rw [g4, h4]
      simp [List.map_cons, List.flatten]
    · simp only [List.foldl_cons] at g5 ⊢
      rw [g5, h5]
      simp [List.map_cons]
      omega

theorem addManifest_spec (apk : String) (s : ProjectSummary)
    (mani : Option ValidationResult) :
    (addManifest apk s mani).valid_files + (addManifest apk s mani).invalid_files
        = s.valid_files + s.invalid_files
            + (match mani with | none => 0 | some _ => 1)
    ∧ (addManifest apk s mani).total_files
        = s.total_files + (match mani with | none => 0 | some _ => 1)
    ∧ (addManifest apk s mani).file_results
        = s.file_results
            ++ (match mani with
                | none => []
                | some r => [(apk ++ "/AndroidManifest.xml", r)])
    ∧ (∀ e ∈ s.errors, e ∈ (addManifest apk s mani).errors)
    ∧ (addManifest apk s mani).invalid_files
        = s.invalid_files
            + (match mani with
               | none => 0
               | some r => if r.valid then 0 else 1) := by
  cases mani with
  | none => simp [addManifest]
  | some r =>
    refine ⟨?_, ?_, ?_, ?_, ?_⟩ <;>
      by_cases hv : r.valid = true <;> by_cases hw : r.warnings.isEmpty = true <;>
      simp [addManifest, hv, hw] <;>
      first
        | omega
        | (intro e he; simp [he])

/-- C4: after every `validate_project_resources` call,
`valid_files + invalid_files = total_files`; when the root and `res/`
exist, the per-file results of every non-raising file are recorded (so the
scan does not stop at a raising file), and every raising file contributes
its synthetic error naming the file. -/
theorem C4_count_invariant (apk : String) (rootEx resEx : Bool)
    (files : List XmlFile) (mani : Option ValidationResult) :
    (validate_project_resources apk rootEx resEx files mani).valid_files
        + (validate_project_resources apk rootEx resEx files mani).invalid_files
        = (validate_project_resources apk rootEx resEx files mani).total_files
    ∧ (rootEx = true → resEx = true →
        (validate_project_resources apk rootEx resEx files mani).file_results
            = resResultsOf files
                ++ (match mani with
                    | none => []
                    | some r => [(apk ++ "/AndroidManifest.xml", r)])
        ∧ (validate_project_resources apk rootEx resEx files mani).invalid_files
            = (files.map invContrib).sum
                + (match mani with
                   | none => 0
                   | some r => if r.valid then 0 else 1)
        ∧ ∀ f ∈ files, ∀ m, f.outcome = FileOutcome.exn m →
            ("Error procesando " ++ f.name ++ ": " ++ m)
              ∈ (validate_project_resources apk rootEx resEx files mani).errors) := by
  cases rootEx with
  | false =>
    refine ⟨by simp [validate_project_resources, initSummary], ?_⟩
    intro h
    exact absurd h (by simp)
  | true =>
    cases resEx with
    | false =>
      obtain ⟨m1, m2, m3, m4, m5⟩ := addManifest_spec apk initSummary mani
      refine ⟨?_, ?_⟩
      · simp only [validate_project_resources, if_pos, Bool.true_eq_false, if_false]
        simp only [if_neg (by simp : ¬(false = true))]
        rw [m1, m2]
        simp [initSummary]
      · intro _ h
        exact absurd h (by simp)
    | true =>
      obtain ⟨f1, f2, f3, f4, f5⟩ :=
        foldl_processFile_spec files { initSummary with total_files := files.length }
      obtain ⟨m1, m2, m3, m4, m5⟩ := addManifest_spec apk
        (files.foldl processFile { initSummary with total_files := files.length }) mani
      have hval : validate_project_resources apk true true files mani
          = addManifest apk
              (files.foldl processFile { initSummary with total_files := files.length })
              mani := by
        simp [validate_project_resources]
      refine ⟨?_, fun _ _ => ⟨?_, ?_, ?_⟩⟩
      · rw [hval, m1, m2, f1, f2]
        simp [initSummary]
      · rw [hval, m3, f3]
        simp [initSummary]
      · rw [hval, m5, f5]
        simp [initSummary]
      · intro f hf m hm
        rw [hval]
        apply m4
        rw [f4]
        apply List.mem_append_right
        rw [List.mem_flatten]
        refine ⟨fileErrContrib f, List.mem_map_of_mem _ hf, ?_⟩
        simp [fileErrContrib, hm]

/-- C4 witness: a project whose first `res/` file raises still records the
second file's result, counts add up, and the synthetic error appears. -/
theorem C4_count_invariant_witness :
    ((validate_project_resources "proj" true true
        [⟨"proj/res/a.xml", "a.xml", FileOutcome.exn "boom"⟩,
         ⟨"proj/res/b.xml", "b.xml", FileOutcome.res ⟨true, [], []⟩⟩] none).valid_files
      + (validate_project_resources "proj" true true
        [⟨"proj/res/a.xml", "a.xml", FileOutcome.exn "boom"⟩,
         ⟨"proj/res/b.xml", "b.xml", FileOutcome.res ⟨true, [], []⟩⟩] none).invalid_files
      = (validate_project_resources "proj" true true
        [⟨"proj/res/a.xml", "a.xml", FileOutcome.exn "boom"⟩,
         ⟨"proj/res/b.xml", "b.xml", FileOutcome.res ⟨true, [], []⟩⟩] none).total_files)
    ∧ ("Error procesando a.xml: boom")
        ∈ (validate_project_resources "proj" true true
            [⟨"proj/res/a.xml", "a.xml", FileOutcome.exn "boom"⟩,
             ⟨"proj/res/b.xml", "b.xml", FileOutcome.res ⟨true, [], []⟩⟩] none).errors := by
  have h := C4_count_invariant "proj" true true
    [⟨"proj/res/a.xml", "a.xml", FileOutcome.exn "boom"⟩,
     ⟨"proj/res/b.xml", "b.xml", FileOutcome.res ⟨true, [], []⟩⟩] none
  exact ⟨h.1, (h.2 rfl rfl).2.2 ⟨"proj/res/a.xml", "a.xml", FileOutcome.exn "boom"⟩
    (by simp) "boom" rfl⟩

/-- C7: a missing project root short-circuits `validate_project_resources`
with all counters zero, no warnings, no per-file results, and exactly one
top-level error that names the path. -/
theorem C7_missing_root (apk : String) (resEx : Bool) (files : List XmlFile)
    (mani : Option ValidationResult) :
    validate_project_resources apk false resEx files mani
        = { initSummary with errors := ["Ruta de proyecto no existe: " ++ apk] }
    ∧ hasSub apk.data ("Ruta de proyecto no existe: " ++ apk).data = true := by
  constructor
  · simp [validate_project_resources]
  · rw [String.data_append]
    exact hasSub_append _ _

/-- The six fixed suggestion strings, in table order. -/
def sugTable : List String := [sugDim, sugDup, sugSyn, sugColor, sugRes, sugDoc]

/-- C8: `suggest_fixes` sends each error through the fixed first-match
keyword table and returns the deduplicated collection of matched
suggestions: no duplicates, every element one of the six fixed strings, and
membership is exactly `some error maps to it`. -/
theorem C8_suggest_fixes (errors : List String) :
    (suggest_fixes errors).Nodup
    ∧ (∀ s, s ∈ suggest_fixes errors ↔ ∃ e ∈ errors, suggestionFor e = s)
    ∧ (∀ s ∈ suggest_fixes errors, s ∈ sugTable)
    ∧ (∀ e, suggestionFor e ∈ sugTable)
    ∧ suggestionFor "Duplicate ID: btn" = sugDup
    ∧ suggestionFor "XML SYNTAX error" = sugSyn
    ∧ suggestionFor "layout_width missing" = sugDim
    ∧ suggestionFor "Invalid color" = sugColor
    ∧ suggestionFor "resource missing" = sugRes
    ∧ suggestionFor "otra cosa" = sugDoc := by
  have hmap : ∀ e, suggestionFor e ∈ sugTable := by
    intro e
    simp only [suggestionFor, sugTable]
    split
    · simp
    · split
      · simp
      · split
        · simp
        · split
          · simp
          · split <;> simp
  have hiff : ∀ s, s ∈ suggest_fixes errors ↔ ∃ e ∈ errors, suggestionFor e = s := by
    intro s
    unfold suggest_fixes
    rw [List.mem_dedup, List.mem_map]
  refine ⟨List.nodup_dedup _, hiff, ?_, hmap, by decide, by decide, by decide,
    by decide, by decide, by decide⟩
  intro s hsm
  obtain ⟨e, -, he⟩ := (hiff s).mp hsm
  exact he ▸ hmap e

/-- C8 witness: the properties evaluated on a concrete error list. -/
theorem C8_suggest_fixes_witness :
    (suggest_fixes ["Duplicate ID: a", "Duplicate ID: b", "Invalid color"]).Nodup
    ∧ sugDup ∈ suggest_fixes ["Duplicate ID: a", "Duplicate ID: b", "Invalid color"] := by
  have h := C8_suggest_fixes ["Duplicate ID: a", "Duplicate ID: b", "Invalid color"]
  exact ⟨h.1, (h.2.1 sugDup).mpr ⟨"Duplicate ID: a", by simp, by decide⟩⟩

/-- The duplicate-ID example of the spec: `btn` declared twice, `txt` once. -/
def dupIdExample : String :=
  "android:id=" ++ dq ++ "@+id/btn" ++ dq ++ " android:id=" ++ dq ++ "@+id/txt"
    ++ dq ++ " android:id=" ++ dq ++ "@+id/btn" ++ dq

/-- C5 (amended): the duplicate-ID check extracts every
`android:id="@+id/<name>"` and `android:id="@id/<name>"` occurrence (the
`+` is optional in the code's regex) and reports exactly one error per
distinct name occurring more than once; on the spec's example, exactly one
error mentions `btn` and none mentions `txt`. -/
theorem C5_duplicate_ids (content : String) (n : String) :
    ((validate_duplicate_ids content).count ("ID duplicado: " ++ n)
        = if (findIds content.data).count n > 1 then 1 else 0)
    ∧ (("ID duplicado: " ++ n) ∈ validate_duplicate_ids content ↔
        (findIds content.data).count n > 1)
    ∧ validate_duplicate_ids dupIdExample = ["ID duplicado: btn"]
    ∧ ((validate_duplicate_ids dupIdExample).filter
        (fun e => containsSub e "btn")).length = 1
    ∧ ((validate_duplicate_ids dupIdExample).filter
        (fun e => containsSub e "txt")).length = 0
    ∧ findIds ("android:id=" ++ dq ++ "@id/z" ++ dq).data = ["z"]
    ∧ findIds ("android:id=" ++ dq ++ "@+id/z" ++ dq).data = ["z"] := by
  have hcount : (validate_duplicate_ids content).count ("ID duplicado: " ++ n)
      = if (findIds content.data).count n > 1 then 1 else 0 := by
    unfold validate_duplicate_ids
    simp only []
    rw [List.count_map_of_injective _ _ (strAppend_injective "ID duplicado: ") n]
    have hnodup : ((findIds content.data).dedup.filter
        (fun m => (findIds content.data).count m > 1)).Nodup :=
      (List.nodup_dedup _).filter _
    by_cases hgt : (findIds content.data).count n > 1
    · have hmem : n ∈ (findIds content.data).dedup.filter
          (fun m => (findIds content.data).count m > 1) := by
        rw [List.mem_filter]
        refine ⟨List.mem_dedup.mpr (List.count_pos_iff.mp (by omega)), by simpa using hgt⟩
      rw [if_pos hgt]
      exact List.count_eq_one_of_mem hnodup hmem
    · have hnmem : n ∉ (findIds content.data).dedup.filter
          (fun m => (findIds content.data).count m > 1) := by
        rw [List.mem_filter]
        rintro ⟨-, hbad⟩
        exact hgt (by simpa using hbad)
      rw [if_neg hgt]
      exact List.count_eq_zero_of_not_mem hnmem
  refine ⟨hcount, ?_, by decide, by decide, by decide, by decide, by decide⟩
  constructor
  · intro hmem
    by_contra hgt
    have := hcount
    rw [if_neg hgt] at this
    exact (List.count_pos_iff.mpr hmem).ne' this
  · intro hgt
    have := hcount
    rw [if_pos hgt] at this
    exact List.count_pos_iff.mp (by omega)

/-- C5 witness: the count law evaluated at the spec's example. -/
theorem C5_duplicate_ids_witness :
    (validate_duplicate_ids dupIdExample).count ("ID duplicado: " ++ "btn")
      = if (findIds dupIdExample.data).count "btn" > 1 then 1 else 0 :=
  (C5_duplicate_ids dupIdExample "btn").1

/-- C5 counterexample: content whose only id declarations use `@id/` (no
`+`).  The claim's extraction (`@+id/` only) finds nothing — so the claim
predicts no error — yet the code's optional-`+` regex extracts `z` twice
and reports a duplicate. -/
theorem C5_counterexample :
    claimFindIds ("android:id=" ++ dq ++ "@id/z" ++ dq ++ " android:id="
        ++ dq ++ "@id/z" ++ dq).data = []
    ∧ validate_duplicate_ids ("android:id=" ++ dq ++ "@id/z" ++ dq
        ++ " android:id=" ++ dq ++ "@id/z" ++ dq) = ["ID duplicado: z"] := by
  exact ⟨by decide, by decide⟩

/-- The color counterexample content: a five-digit hex value. -/
def colorExample : String :=
  "<color name=" ++ dq ++ "a" ++ dq ++ ">#12345</color>"

/-- C1 (amended): a `<color>` value is reported exactly when, after
trimming, it is not `#` followed by 3 TO 8 hexadecimal digits (the code's
regex is `{3,8}`, not `{3 | 4 | 6 | 8}`); one error per offending extracted
value, with the value in the message; the spec's four examples behave as
stated. -/
theorem C1_color_format (content : String) (v : String) :
    ((validate_colors_file content).count ("Formato de color inválido: " ++ v)
        = ((findColors content.data).filter
            (fun x => !reFullHex (pyStrip x.data))).count v)
    ∧ (∀ s : List Char, reFullHex s = true ↔
        ∃ ds, s = '#' :: ds ∧ 3 ≤ ds.length ∧ ds.length ≤ 8 ∧
          ∀ c ∈ ds, isHexCh c = true)
    ∧ reFullHex (pyStrip ("#FF00FF").data) = true
    ∧ reFullHex (pyStrip (" #FFF ").data) = true
    ∧ reFullHex (pyStrip ("#ZZZZZZ").data) = false
    ∧ reFullHex (pyStrip ("#12").data) = false := by
  refine ⟨?_, ?_, by decide, by decide, by decide, by decide⟩
  · unfold validate_colors_file
    rw [filterMap_if_not (fun v => "Formato de color inválido: " ++ v)
      (fun v => reFullHex (pyStrip v.data)) (findColors content.data)]
    exact List.count_map_of_injective _ _
      (strAppend_injective "Formato de color inválido: ") v
  · intro s
    cases s with
    | nil => simp [reFullHex]
    | cons c ds =>
      simp only [reFullHex, Bool.and_eq_true, decide_eq_true_eq, List.all_eq_true]
      constructor
      · rintro ⟨hc, ⟨h3, h8⟩, hall⟩
        exact ⟨ds, by rw [hc], h3, h8, hall⟩
      · rintro ⟨es, heq, h3, h8, hall⟩
        injection heq with hch hds
        subst hch
        subst hds
        exact ⟨rfl, ⟨h3, h8⟩, hall⟩

/-- C1 witness: the count law evaluated at the counterexample content. -/
theorem C1_color_format_witness :
    (validate_colors_file colorExample).count ("Formato de color inválido: " ++ "#12345")
      = ((findColors colorExample.data).filter
          (fun x => !reFullHex (pyStrip x.data))).count "#12345" :=
  (C1_color_format colorExample "#12345").1

/-- C1 counterexample: `#12345` (five hex digits) is extracted, fails the
claim's 3/4/6/8-digit format, yet the code reports no error because its
regex accepts any 3-to-8-digit value. -/
theorem C1_counterexample :
    findColors colorExample.data = ["#12345"]
    ∧ claimColorValid (pyStrip ("#12345").data) = false
    ∧ validate_colors_file colorExample = [] := by
  exact ⟨by decide, by decide, by decide⟩

theorem hasUnescaped_of_mid (p : List Char) (c : Char) (q : List Char)
    (hc : c = '&' ∨ c = '<' ∨ c = '>') (hq : isEntityTail q = false) :
    hasUnescaped (p ++ c :: q) = true := by
  induction p with
  | nil =>
    simp only [List.nil_append, hasUnescaped]
    have hcb : (c = '&' || c = '<' || c = '>') = true := by
      rcases hc with h | h | h <;> simp [h]
    simp [hcb, hq]
  | cons a t ih =>
    simp only [List.cons_append, hasUnescaped]
    simp [ih]

theorem dropWhile_alpha_head (s q : List Char) (hs : (';' : Char) ∉ s) :
    ∀ c l, (s ++ '>' :: q).dropWhile isAsciiAlpha = c :: l → c ≠ ';' := by
  induction s with
  | nil =>
    intro c l h
    have hgt : isAsciiAlpha '>' = false := by decide
    simp only [List.nil_append, List.dropWhile, hgt] at h
    obtain ⟨hc, -⟩ := List.cons.inj h
    subst hc
    decide
  | cons a s' ih =>
    intro c l h
    simp only [List.cons_append, List.dropWhile] at h
    cases hav : isAsciiAlpha a with
    | true =>
      rw [hav] at h
      simp only [] at h
      exact ih (fun hmem => hs (List.mem_cons_of_mem _ hmem)) c l h
    | false =>
      rw [hav] at h
      simp only [] at h
      obtain ⟨hc, -⟩ := List.cons.inj h
      subst hc
      exact fun hceq => hs (by simp [hceq])

theorem isEntityTail_tag (s q : List Char) (hs : (';' : Char) ∉ s) :
    isEntityTail (s ++ '>' :: q) = false := by
  unfold isEntityTail
  cases hd : (s ++ '>' :: q).dropWhile isAsciiAlpha with
  | nil => simp [hd]
  | cons c l =>
    have hc := dropWhile_alpha_head s q hs c l hd
    have hmatch : (match c :: l with
        | ';' :: _ => true
        | _ => false) = false := by
      split
      · rename_i heq
        obtain ⟨hc2, -⟩ := List.cons.inj heq
        exact absurd hc2 hc
      · rfl
    simp [hmatch]

/-- C10: any `&`, `<` or `>` not immediately followed by ASCII letters and
`;` triggers the unescaped-character warning of the strings rules, and in
particular any content containing an XML tag (a `<...>` span with no `;`
inside) always receives it. -/
theorem C10_unescaped_warning :
    (∀ (p : List Char) (c : Char) (q : List Char),
        (c = '&' ∨ c = '<' ∨ c = '>') → isEntityTail q = false →
        "Posibles caracteres especiales sin escapar"
          ∈ (validate_strings_file ⟨p ++ c :: q⟩).2)
    ∧ (∀ (p s q : List Char), (';' : Char) ∉ s →
        "Posibles caracteres especiales sin escapar"
          ∈ (validate_strings_file ⟨p ++ '<' :: (s ++ '>' :: q)⟩).2) := by
  have hmem : ∀ content : String, hasUnescaped content.data = true →
      "Posibles caracteres especiales sin escapar"
        ∈ (validate_strings_file content).2 := by
    intro content h
    unfold validate_strings_file
    simp [h]
  constructor
  · intro p c q hc hq
    exact hmem _ (hasUnescaped_of_mid p c q hc hq)
  · intro p s q hs
    exact hmem _ (hasUnescaped_of_mid p '<' (s ++ '>' :: q)
      (Or.inr (Or.inl rfl)) (isEntityTail_tag s q hs))

/-- C10 witness: a bare ampersand, and a whole tag, each get the warning. -/
theorem C10_unescaped_warning_witness :
    "Posibles caracteres especiales sin escapar"
        ∈ (validate_strings_file ⟨[] ++ '&' :: []⟩).2
    ∧ "Posibles caracteres especiales sin escapar"
        ∈ (validate_strings_file
            ⟨[] ++ '<' :: (['b'] ++ '>' :: [])⟩).2 := by
  refine ⟨C10_unescaped_warning.1 [] '&' [] (Or.inl rfl) (by decide), ?_⟩
  exact C10_unescaped_warning.2 [] ['b'] [] (by decide)

/-! ### C9: resource-reference lexing of id declarations -/

theorem tryRef_not_at (c : Char) (l : List Char) (hc : c ≠ '@') :
    tryRef (c :: l) = none := by
  unfold tryRef
  split
  · rename_i heq
    obtain ⟨hc2, -⟩ := List.cons.inj heq
    exact absurd hc2 hc
  · rfl

theorem findRefs_skip (p r : List Char) (hp : ('@' : Char) ∉ p) :
    findRefs (p ++ r) = findRefs r := by
  unfold findRefs
  apply scan_skip (fun h => tryRef_length h)
  intro q hq hqs
  cases q with
  | nil => exact absurd rfl hq
  | cons c t =>
    have hcp : c ∈ p := hqs.subset (by simp)
    rw [List.cons_append]
    exact tryRef_not_at c (t ++ r) (fun hceq => hp (hceq ▸ hcp))

/-- C9 (amended): when an `android:id="@+id/<name>"` declaration is
reached by the left-to-right reference scan (no stray `@` before it) and
`<name>` consists of name characters, the reference check lexes the token
with type `+id` — the `+` captured as part of the type — and, `+id` not
being a known kind, the layout check emits the possibly-invalid-resource
warning for it; in general every lexed reference with an unknown type
yields that warning.  (Without those provisos the lexing can fail: see the
counterexample.) -/
theorem C9_ref_warning (p s q : List Char)
    (hp : ('@' : Char) ∉ p) (hs : s ≠ [])
    (hsc : ∀ c ∈ s, isRefNameCh c = true) :
    (("+id", (⟨s⟩ : String))
        ∈ findRefs (p ++ ("android:id=" ++ dq ++ "@+id/").data ++ (s ++ qc :: q)))
    ∧ ("Tipo de recurso posiblemente inválido: @+id/" ++ ⟨s⟩)
        ∈ (validate_layout_file
            ⟨p ++ ("android:id=" ++ dq ++ "@+id/").data ++ (s ++ qc :: q)⟩).2
    ∧ (∀ (content : String) (t n : String), (t, n) ∈ findRefs content.data →
        t ∉ knownRefTypes →
        ("Tipo de recurso posiblemente inválido: @" ++ t ++ "/" ++ n)
          ∈ validate_resource_references content) := by
  have hsplit : p ++ ("android:id=" ++ dq ++ "@+id/").data ++ (s ++ qc :: q)
      = (p ++ ("android:id=" ++ dq).data)
        ++ ('@' :: (['+', 'i', 'd'] ++ '/' :: (s ++ qc :: q))) := by
    simp [dq]
  have hpre : ('@' : Char) ∉ p ++ ("android:id=" ++ dq).data := by
    intro hmem
    rcases List.mem_append.mp hmem with h | h
    · exact hp h
    · revert h
      decide
  have hgroup1 := takeWhile_middle (fun c => c ≠ '/') ['+', 'i', 'd'] '/'
    (s ++ qc :: q) (by decide) (by decide)
  have hgroup2 := takeWhile_middle isRefNameCh s qc q hsc (by decide)
  have htry : tryRef ('@' :: (['+', 'i', 'd'] ++ '/' :: (s ++ qc :: q)))
      = some ((("+id" : String), (⟨s⟩ : String)), qc :: q) := by
    simp only [tryRef]
    rw [hgroup1.2]
    simp only [hgroup1.1]
    rw [if_neg (by simp)]
    rw [hgroup2.1, hgroup2.2]
    rw [if_neg (by simpa using hs)]
  have hrefs : (("+id" : String), (⟨s⟩ : String))
      ∈ findRefs (p ++ ("android:id=" ++ dq ++ "@+id/").data ++ (s ++ qc :: q)) := by
    rw [hsplit, findRefs_skip _ _ hpre]
    unfold findRefs
    rw [scan_cons_some (fun h => tryRef_length h) htry]
    exact List.mem_cons_self _ _
  have hgen : ∀ (content : String) (t n : String), (t, n) ∈ findRefs content.data →
      t ∉ knownRefTypes →
      ("Tipo de recurso posiblemente inválido: @" ++ t ++ "/" ++ n)
        ∈ validate_resource_references content := by
    intro content t n hmem hnot
    unfold validate_resource_references
    rw [List.mem_filterMap]
    refine ⟨(t, n), hmem, ?_⟩
    rw [if_neg (by simp [hnot])]
  refine ⟨hrefs, ?_, hgen⟩
  have hwarn := hgen ⟨p ++ ("android:id=" ++ dq ++ "@+id/").data ++ (s ++ qc :: q)⟩
    "+id" ⟨s⟩ hrefs (by decide)
  have hmsg : ("Tipo de recurso posiblemente inválido: @+id/" ++ (⟨s⟩ : String))
      = ("Tipo de recurso posiblemente inválido: @" ++ "+id" ++ "/" ++ (⟨s⟩ : String)) := by
    apply String.ext
    simp [String.data_append]
  rw [hmsg]
  unfold validate_layout_file
  simp only []
  exact List.mem_append_right _ hwarn

/-- C9 witness: a clean declaration is lexed as `+id` and warned about. -/
theorem C9_ref_warning_witness :
    (("+id", ("btn" : String))
        ∈ findRefs ([] ++ ("android:id=" ++ dq ++ "@+id/").data
            ++ (['b', 't', 'n'] ++ qc :: []))) := by
  have h := C9_ref_warning [] ['b', 't', 'n'] [] (by decide) (by decide) (by decide)
  exact h.1

/-- The C9 counterexample content: an id declaration whose name starts
with a space. -/
def refCounterexample : String := "android:id=" ++ dq ++ "@+id/ a" ++ dq

/-- C9 counterexample: this content declares an id (the duplicate-id regex
extracts `" a"`), yet the reference pattern matches nowhere — the name
group `[^"\s>]+` cannot start at the space — so no `+id` token is lexed and
the layout check emits no possibly-invalid-resource warning at all. -/
theorem C9_counterexample :
    findIds refCounterexample.data = [" a"]
    ∧ findRefs refCounterexample.data = []
    ∧ (validate_layout_file refCounterexample).2
        = ["Layout podría necesitar un ViewGroup root válido"]
    ∧ ((validate_layout_file refCounterexample).2.filter
        (fun w => containsSub w "Tipo de recurso")) = [] := by
  exact ⟨by decide, by decide, by decide, by decide⟩

end Panel
